import Mathlib

/-!
Shallow embedding of the markdown splitter (`split_markdown_V1.py`).

Text is modelled as `List Char` (a Python `str` is a sequence of code
points).  Sizes in kilobytes are modelled as rationals: Python computes
`len(text.encode('utf-8')) / 1024` in binary floating point, and division
of an integer byte count by 1024 is exact there, so comparisons against
the (float-valued, hence rational-valued) size parameters coincide with
the rational comparisons used here.
-/

namespace MinerU

/-- The backtick character (code point 96). -/
def backtick : Char := Char.ofNat 96

/-- Python `str.isspace` / the class of characters stripped by `str.strip()`. -/
def pyIsSpace (c : Char) : Bool :=
  c == ' ' || c == '\t' || c == '\n' || c == '\x0b' || c == '\x0c' || c == '\r' ||
  c == '\x1c' || c == '\x1d' || c == '\x1e' || c == '\x1f' || c == '\x85' || c == '\xa0' ||
  c == '\u1680' || ('\u2000' ≤ c && c ≤ '\u200A') || c == '\u2028' || c == '\u2029' ||
  c == '\u202F' || c == '\u205F' || c == '\u3000'

/-- Truthiness of `chunk.strip()`: true iff some character is not whitespace. -/
def strip_truthy (chunk : List Char) : Bool :=
  chunk.any (fun c => !(pyIsSpace c))

/-- `line.rstrip('\n\r')`: remove the trailing run of newline/carriage-return
characters. -/
def rstripNL : List Char → List Char
  | [] => []
  | c :: rest =>
    if rstripNL rest = [] ∧ (c = '\n' ∨ c = '\r') then [] else c :: rstripNL rest

/-- The line-boundary characters of Python `str.splitlines`. -/
def isLineBreak (c : Char) : Bool :=
  c == '\n' || c == '\r' || c == '\x0b' || c == '\x0c' || c == '\x1c' ||
  c == '\x1d' || c == '\x1e' || c == '\x85' || c == '\u2028' || c == '\u2029'

/-- Take one line (with its terminator, `keepends=True` style) off the front:
returns the first line and the remaining text.  A `"\r\n"` pair is a single
boundary. -/
def breakLine : List Char → List Char × List Char
  | [] => ([], [])
  | c :: rest =>
    if c = '\r' ∧ rest.head? = some '\n' then (['\r', '\n'], rest.tail)
    else if isLineBreak c then ([c], rest)
    else
      let p := breakLine rest
      (c :: p.1, p.2)

theorem breakLine_append : ∀ s : List Char, (breakLine s).1 ++ (breakLine s).2 = s := by
  intro s
  induction s with
  | nil => simp [breakLine]
  | cons c rest ih =>
    simp only [breakLine]
    split
    · next h =>
      rcases rest with _ | ⟨d, rest'⟩
      · simp at h
      · simp only [List.head?] at h
        have hd : d = '\n' := by injection h.2
        simp [h.1, hd, List.tail]
    · split
      · simp
      · simpa using ih

theorem breakLine_snd_length_lt : ∀ s : List Char, s ≠ [] → (breakLine s).2.length < s.length := by
  intro s hs
  induction s with
  | nil => exact absurd rfl hs
  | cons c rest ih =>
    simp only [breakLine]
    split
    · next h =>
      rcases rest with _ | ⟨d, rest'⟩
      · simp at h
      · simp only [List.tail, List.length_cons]
        omega
    · split
      · simp
      · rcases rest with _ | ⟨d, rest'⟩
        · simp [breakLine]
        · have := ih (by simp)
          simpa using Nat.lt_succ_of_lt this

/-- Python `content.splitlines(keepends=True)`. -/
def splitlines (s : List Char) : List (List Char) :=
  if h : s = [] then []
  else
    (breakLine s).1 :: splitlines (breakLine s).2
termination_by s.length
decreasing_by exact breakLine_snd_length_lt s h

@[simp] theorem splitlines_nil : splitlines [] = [] := by
  rw [splitlines]
  rfl

theorem splitlines_cons (c : Char) (rest : List Char) :
    splitlines (c :: rest) =
      (breakLine (c :: rest)).1 :: splitlines (breakLine (c :: rest)).2 := by
  rw [splitlines]
  simp

theorem splitlines_flatten (s : List Char) : (splitlines s).flatten = s := by
  by_cases hs : s = []
  · subst hs; simp [splitlines]
  · rw [splitlines, dif_neg hs]
    have ih := splitlines_flatten (breakLine s).2
    simp only [List.flatten_cons, ih]
    exact breakLine_append s
termination_by s.length
decreasing_by exact breakLine_snd_length_lt s hs

/-- UTF-8 byte size of a text divided by 1024, i.e. `get_text_size_kb`
(`len(text.encode('utf-8')) / 1024`). -/
def get_text_size_kb (text : List Char) : ℚ :=
  ((text.map Char.utf8Size).sum : ℚ) / 1024

/-- `_parse_fence_marker`: apply `_FENCE_MARK_RE = ^[ \t]{0,3}([`~]{3,})[ \t]*.*$`
to `line.rstrip('\n\r')` and return `(marker[0], len(marker))` on a match.

Derivation of the executable form from the regex: a match exists iff the
leading run of spaces/tabs has length at most 3 (otherwise, however many of
them `[ \t]{0,3}` consumes, the next character is still a space or tab and
not in `[`~]`), followed by a run of at least 3 characters each a backtick
or a tilde (taken greedily, so the group is the maximal such run), with no
newline in the remainder (`.` does not match `'\n'`; the stripped line
cannot end in `'\n'`, so `$` must be reached at the end of the string).
The group's first character and the run length are returned. -/
def fenceWS (c : Char) : Bool := c == ' ' || c == '\t'

/-- Membership in the regex class `[`~]`. -/
def fenceChar (c : Char) : Bool := c == backtick || c == '~'

def _parse_fence_marker (line : List Char) : Option (Char × ℕ) :=
  if 3 < ((rstripNL line).takeWhile fenceWS).length then none
  else
    match ((rstripNL line).dropWhile fenceWS).takeWhile fenceChar with
    | c0 :: _ :: _ :: more =>
      if '\n' ∈ ((rstripNL line).dropWhile fenceWS).dropWhile fenceChar then none
      else some (c0, more.length + 3)
    | _ => none

/-- `_HEADING_RE = ^(#{1,6})[ \t]+(.+?)[ \t]*#*[ \t]*$` applied to
`line.rstrip('\n\r')`, returning `len(match.group(1))` on a match.

Derivation of the executable form from the regex: with `k` the length of the
maximal leading run of `'#'`, a match requires `1 ≤ k ≤ 6` (for `k ≥ 7`
every choice of the greedy group leaves a `'#'` where `[ \t]+` must match),
then a space or tab, then at least one further character: the lazy `(.+?)`
can absorb the whole remaining tail (trailing `[ \t]*#*[ \t]*` may be
empty), so no other constraint remains except that the tail after the
hashes contains no newline (`.` and the character classes never match
`'\n'`, and the stripped line cannot end in `'\n'`). -/
def isHash (c : Char) : Bool := c == '#'

def headingRunLevel (line : List Char) : Option ℤ :=
  if 1 ≤ ((rstripNL line).takeWhile isHash).length ∧
      ((rstripNL line).takeWhile isHash).length ≤ 6 then
    match (rstripNL line).dropWhile isHash with
    | c :: d :: rest =>
      if (c = ' ' ∨ c = '\t') ∧ '\n' ∉ c :: d :: rest then
        some (((rstripNL line).takeWhile isHash).length : ℤ)
      else none
    | _ => none
  else none

/-- The fence-tracking heading scan of `split_by_header_level` (its main
loop, lines 48–71): walk the lines with the `(in_fence, fence_char,
fence_len)` state (modelled as `Option (Char × ℕ)`) and collect the indices
of lines that match `_HEADING_RE` with `len(group(1)) == header_level`
outside any fence. -/
def findHeadingsAux (header_level : ℤ) :
    List (List Char) → ℕ → Option (Char × ℕ) → List ℕ
  | [], _, _ => []
  | line :: rest, idx, fence_state =>
    match _parse_fence_marker line with
    | some (mark_char, mark_len) =>
      match fence_state with
      | none => findHeadingsAux header_level rest (idx + 1) (some (mark_char, mark_len))
      | some (fence_char, fence_len) =>
        if mark_char = fence_char ∧ fence_len ≤ mark_len then
          findHeadingsAux header_level rest (idx + 1) none
        else
          findHeadingsAux header_level rest (idx + 1) (some (fence_char, fence_len))
    | none =>
      match fence_state with
      | some st => findHeadingsAux header_level rest (idx + 1) (some st)
      | none =>
        match headingRunLevel line with
        | some k =>
          if k = header_level then idx :: findHeadingsAux header_level rest (idx + 1) none
          else findHeadingsAux header_level rest (idx + 1) none
        | none => findHeadingsAux header_level rest (idx + 1) none

/-- The heading indices the scanner reports for a whole document. -/
def findHeadings (content : List Char) (header_level : ℤ) : List ℕ :=
  findHeadingsAux header_level (splitlines content) 0 none

/-- The chunk-building loop of `split_by_header_level` (lines 83–87): for
each heading index `start`, the span `lines[start:end]` with `end` the next
index (or the end of the document), kept only when `chunk.strip()` is
truthy. -/
def buildChunks (lines : List (List Char)) : List ℕ → List (List Char)
  | [] => []
  | [start] =>
    if strip_truthy (lines.drop start).flatten then [(lines.drop start).flatten] else []
  | start :: next :: more =>
    (if strip_truthy ((lines.drop start).take (next - start)).flatten then
      [((lines.drop start).take (next - start)).flatten]
     else []) ++ buildChunks lines (next :: more)

/-- `split_by_header_level(content, header_level)`. -/
def split_by_header_level (content : List Char) (header_level : ℤ) : List (List Char) :=
  if ¬(1 ≤ header_level ∧ header_level ≤ 6) then [content]
  else
    match findHeadingsAux header_level (splitlines content) 0 none with
    | [] => [content]
    | first :: more =>
      (if 0 < first then
        (if strip_truthy ((splitlines content).take first).flatten then
          [((splitlines content).take first).flatten]
         else [])
       else []) ++ buildChunks (splitlines content) (first :: more)

/-- `split_chunk_recursive(chunk, current_level, max_level, max_size_kb)`. -/
def split_chunk_recursive (chunk : List Char) (current_level max_level : ℤ)
    (max_size_kb : ℚ) : List (List Char) :=
  if get_text_size_kb chunk ≤ max_size_kb then [chunk]
  else if h : max_level < current_level then [chunk]
  else if (split_by_header_level chunk current_level).length ≤ 1 then
    split_chunk_recursive chunk (current_level + 1) max_level max_size_kb
  else
    ((split_by_header_level chunk current_level).map (fun part =>
      split_chunk_recursive part (current_level + 1) max_level max_size_kb)).flatten
termination_by (max_level + 2 - current_level).toNat
decreasing_by all_goals omega

/-- The loop of `merge_small_chunks` with its `current` accumulator. -/
def merge_loop (minK maxK : ℚ) : List Char → List (List Char) → List (List Char)
  | current, [] => [current]
  | current, next_chunk :: rest =>
    if (get_text_size_kb current < minK ∨ get_text_size_kb next_chunk < minK) ∧
        get_text_size_kb
          (current ++ (if current.getLast? = some '\n' then [] else ['\n']) ++ next_chunk) ≤
          maxK then
      merge_loop minK maxK
        (current ++ (if current.getLast? = some '\n' then [] else ['\n']) ++ next_chunk) rest
    else
      current :: merge_loop minK maxK next_chunk rest

/-- `merge_small_chunks(chunks, min_size_kb, max_size_kb)`. -/
def merge_small_chunks (chunks : List (List Char)) (min_size_kb max_size_kb : ℚ) :
    List (List Char) :=
  match chunks with
  | [] => []
  | c :: rest => merge_loop min_size_kb max_size_kb c rest

/-- The errors the modelled pipeline can signal: a `ValueError` from
parameter validation, or an unreadable document source. -/
inductive PyErr where
  | valueError (msg : String)
  | sourceUnavailable
deriving DecidableEq

/-- `_validate_params`. -/
def _validate_params (max_size_kb min_size_kb : ℚ) (max_header_level : ℤ) :
    Except PyErr Unit :=
  if max_size_kb ≤ 0 then .error (.valueError "max_size_kb must be > 0")
  else if min_size_kb < 0 then .error (.valueError "min_size_kb must be >= 0")
  else if max_size_kb < min_size_kb then .error (.valueError "min_size_kb must be <= max_size_kb")
  else if ¬(1 ≤ max_header_level ∧ max_header_level ≤ 6) then
    .error (.valueError "max_header_level must be between 1 and 6")
  else .ok ()

/-- `split_markdown_document`, with the file system abstracted away: the
document source is `none` when the file cannot be read, `some content`
otherwise (for a UTF-8 file, `get_file_size_kb` of the path equals
`get_text_size_kb` of its content).  The result is the final chunk list
handed to `save_chunks`. -/
def split_markdown_document (source : Option (List Char))
    (max_size_kb min_size_kb : ℚ) (max_header_level : ℤ) :
    Except PyErr (List (List Char)) :=
  match _validate_params max_size_kb min_size_kb max_header_level with
  | .error e => .error e
  | .ok _ =>
    match source with
    | none => .error .sourceUnavailable
    | some content =>
      if get_text_size_kb content ≤ max_size_kb then .ok [content]
      else .ok (merge_small_chunks
        (split_chunk_recursive content 1 max_header_level max_size_kb)
        min_size_kb max_size_kb)

/-- A result of the pipeline is a configuration error when it is a
`ValueError` raised by validation. -/
def isConfigError (r : Except PyErr (List (List Char))) : Prop :=
  ∃ m, r = .error (.valueError m)

/-! ### Spec-side definitions (following the specification's wording) -/

/-- The specification's fence-state transition (§4.1 of the spec): a fence
opens on a fence-marker line when not already in a fence, and closes on a
marker line whose marker character matches and whose run length is at least
the opening run length; any other line leaves the state unchanged. -/
def fence_step (st : Option (Char × ℕ)) (line : List Char) : Option (Char × ℕ) :=
  match _parse_fence_marker line, st with
  | some (c, n), none => some (c, n)
  | some (c, n), some (fc, fl) => if c = fc ∧ fl ≤ n then none else some (fc, fl)
  | none, st => st

/-- The fence state in force when the scanner reaches line `k`: the fold of
the fence transition over the preceding lines. -/
def fence_state_before (lines : List (List Char)) (k : ℕ) : Option (Char × ℕ) :=
  (lines.take k).foldl fence_step none

/-- The intro span: the lines before the first heading, concatenated. -/
def intro_span (lines : List (List Char)) (first : ℕ) : List Char :=
  (lines.take first).flatten

/-- One span per heading index: from that heading up to (excluding) the next
index in the list, the last one extending to the end of the document.  This
is the spec's §4.2 span sequence before blank spans are dropped. -/
def heading_spans (lines : List (List Char)) : List ℕ → List (List Char)
  | [] => []
  | [start] => [(lines.drop start).flatten]
  | start :: next :: more =>
    ((lines.drop start).take (next - start)).flatten :: heading_spans lines (next :: more)

/-- All spans the splitter carves a document into before dropping blanks:
the whole document when no heading is found, otherwise the (possibly blank)
intro span when the first heading is not at line 0, followed by the heading
spans. -/
def spanList (content : List Char) (header_level : ℤ) : List (List Char) :=
  match findHeadings content header_level with
  | [] => [content]
  | first :: more =>
    (if 0 < first then [intro_span (splitlines content) first] else []) ++
      heading_spans (splitlines content) (first :: more)

/-! ### Scanner lemmas -/

theorem headingRunLevel_range {line : List Char} {k : ℤ}
    (h : headingRunLevel line = some k) : 1 ≤ k ∧ k ≤ 6 := by
  unfold headingRunLevel at h
  split at h
  · next hk =>
    split at h
    · split at h
      · obtain rfl : (_ : ℤ) = k := Option.some.inj h
        exact ⟨by exact_mod_cast hk.1, by exact_mod_cast hk.2⟩
      · exact absurd h (by simp)
    · exact absurd h (by simp)
  · exact absurd h (by simp)

/-- A heading line is never a fence-marker line: a heading starts with `'#'`
(no leading whitespace), while a fence marker starts with a backtick or a
tilde after at most three spaces/tabs. -/
theorem headingRunLevel_not_fence {line : List Char} {k : ℤ}
    (h : headingRunLevel line = some k) : _parse_fence_marker line = none := by
  unfold headingRunLevel at h
  unfold _parse_fence_marker
  rcases hs : rstripNL line with _ | ⟨c, s'⟩
  · rw [hs] at h
    simp at h
  · rw [hs] at h
    by_cases hc : c = '#'
    · subst hc
      have hws : fenceWS '#' = false := by decide
      have hfc : fenceChar '#' = false := by decide
      simp [List.takeWhile_cons, List.dropWhile_cons, hws, hfc]
    · exfalso
      have hih : isHash c = false := by
        unfold isHash
        exact beq_false_of_ne hc
      rw [List.takeWhile_cons, hih] at h
      simp at h

/-- One step of the scanner: the head line is reported exactly when the
state is "not in fence" and the line is a heading of the requested level
(such a line is never itself a fence marker), and the scan continues with
the state advanced by the fence transition. -/
theorem findHeadingsAux_cons (l : ℤ) (line : List Char) (rest : List (List Char))
    (i : ℕ) (st : Option (Char × ℕ)) :
    findHeadingsAux l (line :: rest) i st =
      (if st = none ∧ headingRunLevel line = some l then [i] else []) ++
        findHeadingsAux l rest (i + 1) (fence_step st line) := by
  rcases hp : _parse_fence_marker line with _ | ⟨c, n⟩ <;>
    simp only [findHeadingsAux, fence_step, hp]
  · rcases st with _ | ⟨fc, fl⟩
    · rcases hh : headingRunLevel line with _ | k
      · simp [hh]
      · by_cases hk : k = l
        · subst hk; simp [hh]
        · simp [hh, hk]
    · simp
  · rcases st with _ | ⟨fc, fl⟩
    · have hne : headingRunLevel line ≠ some l := by
        intro hh; rw [headingRunLevel_not_fence hh] at hp; exact Option.noConfusion hp
      simp [hne]
    · dsimp only
      by_cases hcl : c = fc ∧ fl ≤ n
      · rw [if_pos hcl, if_pos hcl]; simp
      · rw [if_neg hcl, if_neg hcl]; simp

theorem findHeadingsAux_out_of_range (l : ℤ) (hl : ¬(1 ≤ l ∧ l ≤ 6)) :
    ∀ (lines : List (List Char)) (i : ℕ) (st : Option (Char × ℕ)),
      findHeadingsAux l lines i st = [] := by
  intro lines
  induction lines with
  | nil => intro i st; rfl
  | cons line rest ih =>
    intro i st
    rw [findHeadingsAux_cons]
    have : ¬(st = none ∧ headingRunLevel line = some l) := by
      rintro ⟨-, hh⟩; exact hl (headingRunLevel_range hh)
    rw [if_neg this, ih]
    rfl

theorem findHeadingsAux_ge (l : ℤ) :
    ∀ (lines : List (List Char)) (i : ℕ) (st : Option (Char × ℕ)) (j : ℕ),
      j ∈ findHeadingsAux l lines i st → i ≤ j := by
  intro lines
  induction lines with
  | nil => intro i st j h; simp [findHeadingsAux] at h
  | cons line rest ih =>
    intro i st j h
    rw [findHeadingsAux_cons] at h
    rcases List.mem_append.1 h with h1 | h2
    · split at h1
      · simp at h1; omega
      · simp at h1
    · exact le_of_lt (Nat.lt_of_lt_of_le (Nat.lt_succ_self i) (ih (i + 1) _ j h2))

theorem findHeadingsAux_chain (l : ℤ) :
    ∀ (lines : List (List Char)) (i : ℕ) (st : Option (Char × ℕ)),
      List.Chain' (· < ·) (findHeadingsAux l lines i st) := by
  intro lines
  induction lines with
  | nil => intro i st; simp [findHeadingsAux]
  | cons line rest ih =>
    intro i st
    rw [findHeadingsAux_cons]
    split
    · refine List.chain'_cons'.2 ⟨?_, ih (i + 1) _⟩
      intro y hy
      have : y ∈ findHeadingsAux l rest (i + 1) (fence_step st line) :=
        List.mem_of_mem_head? hy
      exact Nat.lt_of_succ_le (findHeadingsAux_ge l rest (i + 1) _ y this)
    · simpa using ih (i + 1) (fence_step st line)

/-! ### Characterizing `split_by_header_level` -/

theorem buildChunks_eq_filter (lines : List (List Char)) :
    ∀ idxs : List ℕ, buildChunks lines idxs = (heading_spans lines idxs).filter strip_truthy := by
  intro idxs
  induction idxs with
  | nil => rfl
  | cons start more ih =>
    rcases more with _ | ⟨next, more'⟩
    · simp only [buildChunks, heading_spans, List.filter_cons, List.filter_nil]
    · simp only [buildChunks, heading_spans, List.filter_cons, ih]
      split <;> simp

/-- `split_by_header_level` in closed form: the whole document when the
scanner finds no heading, else the non-blank members of the span list. -/
theorem split_by_header_level_eq (content : List Char) (l : ℤ) :
    split_by_header_level content l =
      match findHeadings content l with
      | [] => [content]
      | _ :: _ => (spanList content l).filter strip_truthy := by
  unfold split_by_header_level spanList findHeadings
  by_cases hl : 1 ≤ l ∧ l ≤ 6
  · rw [if_neg (not_not_intro hl)]
    rcases hidx : findHeadingsAux l (splitlines content) 0 none with _ | ⟨first, more⟩
    · rfl
    · simp only [List.filter_append, buildChunks_eq_filter]
      congr 1
      by_cases hf : 0 < first
      · simp only [if_pos hf, intro_span, List.filter_cons, List.filter_nil]
      · simp [hf]
  · rw [if_pos hl]
    rw [findHeadingsAux_out_of_range l hl]

/-! ### Concatenation of the spans -/

theorem flatten_take_drop (m : List (List Char)) (n : ℕ) :
    (m.take n).flatten ++ (m.drop n).flatten = m.flatten := by
  rw [← List.flatten_append, List.take_append_drop]

theorem heading_spans_flatten (lines : List (List Char)) :
    ∀ (idxs : List ℕ) (first : ℕ), List.Chain' (· < ·) (first :: idxs) →
      (heading_spans lines (first :: idxs)).flatten = (lines.drop first).flatten := by
  intro idxs
  induction idxs with
  | nil => intro first _; simp [heading_spans]
  | cons next more ih =>
    intro first hchain
    have hlt : first < next := (List.chain'_cons.1 hchain).1
    have htail := (List.chain'_cons.1 hchain).2
    simp only [heading_spans, List.flatten_cons]
    rw [ih next htail]
    have hdd : lines.drop next = (lines.drop first).drop (next - first) := by
      rw [List.drop_drop]
      congr 1
      omega
    rw [hdd]
    exact flatten_take_drop (lines.drop first) (next - first)

theorem spanList_flatten (content : List Char) (l : ℤ) :
    (spanList content l).flatten = content := by
  unfold spanList
  rcases hidx : findHeadings content l with _ | ⟨first, more⟩
  · simp
  · have hchain : List.Chain' (· < ·) (first :: more) := by
      rw [← hidx]
      exact findHeadingsAux_chain l (splitlines content) 0 none
    rw [List.flatten_append, heading_spans_flatten (splitlines content) more first hchain]
    by_cases hf : 0 < first
    · rw [if_pos hf]
      simp only [List.flatten_cons, List.flatten_nil, List.append_nil, intro_span]
      rw [flatten_take_drop, splitlines_flatten]
    · have : first = 0 := by omega
      subst this
      simp [splitlines_flatten]

/-! ### Claims C5, C7, C9: shape of `split_by_header_level` -/

/-- C5: for a level in [1,6], `split_by_header_level` returns the whole
document as a single fragment when the scanner finds zero headings of that
level; otherwise an intro fragment from line 0 up to (excluding) the first
heading — included only when the first heading is not at line 0 and the
intro is non-blank after trimming — followed by one fragment per heading,
spanning to (excluding) the next same-level heading or document end, each
dropped when blank after trimming, all in source order. -/
theorem C5_split_by_level_shape (content : List Char) (l : ℤ)
    (h1 : 1 ≤ l) (h2 : l ≤ 6) :
    split_by_header_level content l =
      match findHeadings content l with
      | [] => [content]
      | first :: more =>
        ((if first ≠ 0 then [intro_span (splitlines content) first] else []) ++
          heading_spans (splitlines content) (first :: more)).filter strip_truthy := by
  rw [split_by_header_level_eq]
  rcases hidx : findHeadings content l with _ | ⟨first, more⟩
  · rfl
  · unfold spanList
    rw [hidx]
    by_cases hf : first = 0
    · simp [hf]
    · simp [hf, Nat.pos_of_ne_zero hf]

theorem C5_witness :
    (1 : ℤ) ≤ 1 ∧ (1 : ℤ) ≤ 6 ∧
      split_by_header_level "x\n# a\n# b\n".data 1 =
        match findHeadings "x\n# a\n# b\n".data 1 with
        | [] => ["x\n# a\n# b\n".data]
        | first :: more =>
          ((if first ≠ 0 then [intro_span (splitlines "x\n# a\n# b\n".data) first] else []) ++
            heading_spans (splitlines "x\n# a\n# b\n".data) (first :: more)).filter
            strip_truthy :=
  ⟨by norm_num, by norm_num,
    C5_split_by_level_shape "x\n# a\n# b\n".data 1 (by norm_num) (by norm_num)⟩

/-- C7: the spans the splitter carves a document into concatenate back to
the document exactly, and the returned fragments are precisely those spans
minus the ones dropped solely for being blank after trimming (when no
heading is found nothing is dropped and the whole document is returned). -/
theorem C7_coverage (content : List Char) (l : ℤ) :
    (spanList content l).flatten = content ∧
      split_by_header_level content l =
        (if (findHeadings content l).isEmpty then [content]
         else (spanList content l).filter strip_truthy) := by
  refine ⟨spanList_flatten content l, ?_⟩
  rw [split_by_header_level_eq]
  rcases hidx : findHeadings content l with _ | ⟨first, more⟩ <;> simp

/-- C9 fails as stated: on the all-whitespace document `" "` (no headings
at any level), `split_by_header_level` returns the document itself as a
fragment, which is empty after trimming. -/
theorem C9_counterexample :
    ¬ (∀ frag ∈ split_by_header_level [' '] 1, strip_truthy frag = true) := by
  intro hall
  have hsl : splitlines [' '] = [[' ']] := by
    simp [splitlines_cons, breakLine, isLineBreak]
  have heq : split_by_header_level [' '] 1 = [[' ']] := by
    simp [split_by_header_level, hsl, findHeadingsAux, headingRunLevel,
      _parse_fence_marker, rstripNL, fenceWS, fenceChar, isHash]
  have := hall [' '] (by rw [heq]; exact List.mem_singleton.2 rfl)
  simp [strip_truthy, pyIsSpace] at this

/-- C9 amended: provided the document itself is non-blank after trimming,
every fragment returned by `split_by_header_level` (for every level) is
non-blank after trimming. -/
theorem C9_amended (content : List Char) (l : ℤ) (h : strip_truthy content = true) :
    ∀ frag ∈ split_by_header_level content l, strip_truthy frag = true := by
  intro frag hf
  rw [split_by_header_level_eq] at hf
  rcases hidx : findHeadings content l with _ | ⟨first, more⟩ <;> rw [hidx] at hf
  · rw [List.mem_singleton.1 hf]
    exact h
  · exact (List.mem_filter.1 hf).2

theorem C9_witness :
    strip_truthy ['x'] = true ∧
      ∀ frag ∈ split_by_header_level ['x'] 1, strip_truthy frag = true :=
  ⟨by decide, C9_amended ['x'] 1 (by decide)⟩

/-! ### Claim C1: the recursive splitter's branch structure -/

theorem split_chunk_recursive_unfold (chunk : List Char) (current_level max_level : ℤ)
    (max_size_kb : ℚ) :
    split_chunk_recursive chunk current_level max_level max_size_kb =
      if get_text_size_kb chunk ≤ max_size_kb then [chunk]
      else if max_level < current_level then [chunk]
      else if (split_by_header_level chunk current_level).length ≤ 1 then
        split_chunk_recursive chunk (current_level + 1) max_level max_size_kb
      else
        ((split_by_header_level chunk current_level).map (fun part =>
          split_chunk_recursive part (current_level + 1) max_level max_size_kb)).flatten := by
  conv_lhs => rw [split_chunk_recursive]
  simp only [dite_eq_ite]

/-- C1: `split_chunk_recursive` returns `[chunk]` when the chunk's size is
at most the ceiling, else returns `[chunk]` when the level has passed
`max_level`, else splits at the current level and either retries the same
whole chunk at `level + 1` (at most one part) or concatenates, in order,
the recursive results on each part at `level + 1` (two or more parts). -/
theorem C1_split_recursive_eq (chunk : List Char) (current_level max_level : ℤ)
    (max_size_kb : ℚ) :
    split_chunk_recursive chunk current_level max_level max_size_kb =
      if get_text_size_kb chunk ≤ max_size_kb then [chunk]
      else if max_level < current_level then [chunk]
      else if (split_by_header_level chunk current_level).length ≤ 1 then
        split_chunk_recursive chunk (current_level + 1) max_level max_size_kb
      else
        ((split_by_header_level chunk current_level).map (fun part =>
          split_chunk_recursive part (current_level + 1) max_level max_size_kb)).flatten :=
  split_chunk_recursive_unfold chunk current_level max_level max_size_kb

/-! ### Claim C2: the merge pass as a left fold -/

/-- One step of the merge fold described by the spec (§4.4): the state is
(finished fragments, accumulator); the candidate is the accumulator, a
newline unless it already ends in one, then the next fragment; the
candidate replaces the accumulator iff one side is below the floor and the
candidate is within the ceiling, else the accumulator is flushed. -/
def merge_step (minK maxK : ℚ) (st : List (List Char) × List Char) (next : List Char) :
    List (List Char) × List Char :=
  if (get_text_size_kb st.2 < minK ∨ get_text_size_kb next < minK) ∧
      get_text_size_kb (st.2 ++ (if st.2.getLast? = some '\n' then [] else ['\n']) ++ next) ≤
        maxK then
    (st.1, st.2 ++ (if st.2.getLast? = some '\n' then [] else ['\n']) ++ next)
  else (st.1 ++ [st.2], next)

/-- The merge pass as the spec words it: a left fold over the tail with the
accumulator seeded at the first fragment, emitting the final accumulator at
the end; empty input yields empty output. -/
def merge_fold (chunks : List (List Char)) (minK maxK : ℚ) : List (List Char) :=
  match chunks with
  | [] => []
  | c0 :: rest =>
    (rest.foldl (merge_step minK maxK) (([] : List (List Char)), c0)).1 ++
      [(rest.foldl (merge_step minK maxK) (([] : List (List Char)), c0)).2]

theorem merge_loop_foldl (minK maxK : ℚ) :
    ∀ (rest : List (List Char)) (out : List (List Char)) (current : List Char),
      out ++ merge_loop minK maxK current rest =
        (rest.foldl (merge_step minK maxK) (out, current)).1 ++
          [(rest.foldl (merge_step minK maxK) (out, current)).2] := by
  intro rest
  induction rest with
  | nil => intro out current; rfl
  | cons next rest' ih =>
    intro out current
    rw [List.foldl_cons]
    by_cases hcond : (get_text_size_kb current < minK ∨ get_text_size_kb next < minK) ∧
        get_text_size_kb
          (current ++ (if current.getLast? = some '\n' then [] else ['\n']) ++ next) ≤ maxK
    · have hstep : merge_step minK maxK (out, current) next =
          (out, current ++ (if current.getLast? = some '\n' then [] else ['\n']) ++ next) := by
        simp only [merge_step]
        rw [if_pos hcond]
      rw [hstep]
      simp only [merge_loop]
      rw [if_pos hcond]
      exact ih out _
    · have hstep : merge_step minK maxK (out, current) next = (out ++ [current], next) := by
        simp only [merge_step]
        rw [if_neg hcond]
      rw [hstep]
      simp only [merge_loop]
      rw [if_neg hcond, ← ih (out ++ [current]) next]
      simp

/-- C2: `merge_small_chunks` is exactly the left-to-right fold of the
merge step, starting the accumulator at the first fragment and emitting the
final accumulator after the loop; the empty input yields the empty
output. -/
theorem C2_merge_is_fold (chunks : List (List Char)) (minK maxK : ℚ) :
    merge_small_chunks chunks minK maxK = merge_fold chunks minK maxK := by
  rcases chunks with _ | ⟨c0, rest⟩
  · rfl
  · have := merge_loop_foldl minK maxK rest [] c0
    simpa [merge_small_chunks, merge_fold] using this

/-! ### Claim C6: the merge pass and the ceiling -/

/-- C6 fails as stated: with floor 0 ≤ ceiling 1/1024 KB (one byte), the
single input fragment `"ab"` (two bytes) passes through the merge pass
untouched, and the output fragment exceeds the ceiling. -/
theorem C6_counterexample :
    (0 : ℚ) ≤ 1 / 1024 ∧
      merge_small_chunks [['a', 'b']] 0 (1 / 1024) = [['a', 'b']] ∧
      ¬ get_text_size_kb ['a', 'b'] ≤ 1 / 1024 := by
  refine ⟨by norm_num, rfl, ?_⟩
  have hs : (['a', 'b'].map Char.utf8Size).sum = 2 := by decide
  simp only [get_text_size_kb, hs]
  norm_num

theorem merge_loop_ceiling (minK maxK : ℚ) :
    ∀ (rest : List (List Char)) (current : List Char),
      get_text_size_kb current ≤ maxK → (∀ x ∈ rest, get_text_size_kb x ≤ maxK) →
      ∀ y ∈ merge_loop minK maxK current rest, get_text_size_kb y ≤ maxK := by
  intro rest
  induction rest with
  | nil =>
    intro current hc _ y hy
    rw [List.mem_singleton.1 hy]
    exact hc
  | cons next rest' ih =>
    intro current hc hall y hy
    simp only [merge_loop] at hy
    by_cases hcond : (get_text_size_kb current < minK ∨ get_text_size_kb next < minK) ∧
        get_text_size_kb
          (current ++ (if current.getLast? = some '\n' then [] else ['\n']) ++ next) ≤ maxK
    · rw [if_pos hcond] at hy
      exact ih _ hcond.2 (fun x hx => hall x (List.mem_cons_of_mem next hx)) y hy
    · rw [if_neg hcond] at hy
      rcases List.mem_cons.1 hy with h | h
      · rw [h]; exact hc
      · exact ih next (hall next (List.mem_cons_self next rest'))
          (fun x hx => hall x (List.mem_cons_of_mem next hx)) y h

/-- C6 amended: provided every **input** fragment's size is at most the
ceiling (and floor ≤ ceiling), every output fragment of `merge_small_chunks`
has size at most the ceiling, even if some remain below the floor.  (As
stated the claim is false: an input fragment already above the ceiling
passes through unchanged.) -/
theorem C6_amended (chunks : List (List Char)) (minK maxK : ℚ)
    (hfc : minK ≤ maxK) (hall : ∀ x ∈ chunks, get_text_size_kb x ≤ maxK) :
    ∀ y ∈ merge_small_chunks chunks minK maxK, get_text_size_kb y ≤ maxK := by
  rcases chunks with _ | ⟨c0, rest⟩
  · intro y hy; simp [merge_small_chunks] at hy
  · exact merge_loop_ceiling minK maxK rest c0
      (hall c0 (List.mem_cons_self c0 rest))
      (fun x hx => hall x (List.mem_cons_of_mem c0 hx))

theorem C6_witness :
    (0 : ℚ) ≤ 1 ∧ (∀ x ∈ [['a']], get_text_size_kb x ≤ 1) ∧
      ∀ y ∈ merge_small_chunks [['a']] 0 1, get_text_size_kb y ≤ 1 := by
  have hone : get_text_size_kb ['a'] ≤ 1 := by
    have hs : (['a'].map Char.utf8Size).sum = 1 := by decide
    simp only [get_text_size_kb, hs]
    norm_num
  have hall : ∀ x ∈ [['a']], get_text_size_kb x ≤ 1 := by
    intro x hx
    rw [List.mem_singleton.1 hx]
    exact hone
  exact ⟨by norm_num, hall, C6_amended [['a']] 0 1 (by norm_num) hall⟩

/-! ### Claim C8: termination and coverage of the recursive splitter -/

theorem cover_build (f : List Char → List (List Char))
    (hf : ∀ p : List Char, f p ≠ [] ∧ ∃ fp : List (List Char), fp.flatten = p ∧
      (f p).Sublist fp ∧ ∀ s ∈ fp, s ∈ f p ∨ strip_truthy s = false) :
    ∀ pieces : List (List Char),
      ∃ full : List (List Char), full.flatten = pieces.flatten ∧
        (((pieces.filter strip_truthy).map f).flatten).Sublist full ∧
        ∀ s ∈ full, s ∈ ((pieces.filter strip_truthy).map f).flatten ∨
          strip_truthy s = false := by
  intro pieces
  induction pieces with
  | nil => exact ⟨[], rfl, List.Sublist.refl [], by simp⟩
  | cons p rest ih =>
    obtain ⟨fullr, hfr1, hfr2, hfr3⟩ := ih
    by_cases hb : strip_truthy p = true
    · obtain ⟨-, fp, hfp1, hfp2, hfp3⟩ := hf p
      refine ⟨fp ++ fullr, ?_, ?_, ?_⟩
      · rw [List.flatten_append, hfp1, hfr1, List.flatten_cons]
      · rw [List.filter_cons, if_pos hb, List.map_cons, List.flatten_cons]
        exact List.Sublist.append hfp2 hfr2
      · intro s hs
        rw [List.filter_cons, if_pos hb, List.map_cons, List.flatten_cons]
        rcases List.mem_append.1 hs with h | h
        · rcases hfp3 s h with h' | h'
          · exact Or.inl (List.mem_append_left _ h')
          · exact Or.inr h'
        · rcases hfr3 s h with h' | h'
          · exact Or.inl (List.mem_append_right _ h')
          · exact Or.inr h'
    · refine ⟨p :: fullr, ?_, ?_, ?_⟩
      · rw [List.flatten_cons, hfr1, List.flatten_cons]
      · rw [List.filter_cons, if_neg hb]
        exact List.Sublist.cons p hfr2
      · intro s hs
        rw [List.filter_cons, if_neg hb]
        rcases List.mem_cons.1 hs with h | h
        · subst h
          exact Or.inr (Bool.not_eq_true _ ▸ hb)
        · exact hfr3 s h

theorem split_chunk_cover : ∀ (n : ℕ) (c : List Char) (lvl maxl : ℤ) (k : ℚ),
    (maxl + 2 - lvl).toNat ≤ n →
    split_chunk_recursive c lvl maxl k ≠ [] ∧
      ∃ full : List (List Char), full.flatten = c ∧
        (split_chunk_recursive c lvl maxl k).Sublist full ∧
        ∀ s ∈ full, s ∈ split_chunk_recursive c lvl maxl k ∨ strip_truthy s = false := by
  intro n
  induction n with
  | zero =>
    intro c lvl maxl k hn
    have hex : maxl < lvl := by omega
    have heq : split_chunk_recursive c lvl maxl k = [c] := by
      rw [split_chunk_recursive_unfold]
      by_cases hsz : get_text_size_kb c ≤ k
      · rw [if_pos hsz]
      · rw [if_neg hsz, if_pos hex]
    rw [heq]
    exact ⟨by simp, [c], by simp, List.Sublist.refl [c], by simp⟩
  | succ n ih =>
    intro c lvl maxl k hn
    by_cases hsz : get_text_size_kb c ≤ k
    · have heq : split_chunk_recursive c lvl maxl k = [c] := by
        rw [split_chunk_recursive_unfold, if_pos hsz]
      rw [heq]
      exact ⟨by simp, [c], by simp, List.Sublist.refl [c], by simp⟩
    · by_cases hex : maxl < lvl
      · have heq : split_chunk_recursive c lvl maxl k = [c] := by
          rw [split_chunk_recursive_unfold, if_neg hsz, if_pos hex]
        rw [heq]
        exact ⟨by simp, [c], by simp, List.Sublist.refl [c], by simp⟩
      · by_cases hle : (split_by_header_level c lvl).length ≤ 1
        · have heq : split_chunk_recursive c lvl maxl k =
              split_chunk_recursive c (lvl + 1) maxl k := by
            rw [split_chunk_recursive_unfold, if_neg hsz, if_neg hex, if_pos hle]
          rw [heq]
          exact ih c (lvl + 1) maxl k (by omega)
        · have heq : split_chunk_recursive c lvl maxl k =
              ((split_by_header_level c lvl).map (fun part =>
                split_chunk_recursive part (lvl + 1) maxl k)).flatten := by
            rw [split_chunk_recursive_unfold, if_neg hsz, if_neg hex, if_neg hle]
          have hparts : split_by_header_level c lvl =
              (spanList c lvl).filter strip_truthy := by
            rw [split_by_header_level_eq]
            rcases hidx : findHeadings c lvl with _ | ⟨f, m⟩
            · exfalso
              rw [split_by_header_level_eq, hidx] at hle
              exact hle (by simp)
            · rfl
          have hf : ∀ p : List Char,
              split_chunk_recursive p (lvl + 1) maxl k ≠ [] ∧
              ∃ fp : List (List Char), fp.flatten = p ∧
                (split_chunk_recursive p (lvl + 1) maxl k).Sublist fp ∧
                ∀ s ∈ fp, s ∈ split_chunk_recursive p (lvl + 1) maxl k ∨
                  strip_truthy s = false :=
            fun p => ih p (lvl + 1) maxl k (by omega)
          obtain ⟨full, hfl1, hfl2, hfl3⟩ :=
            cover_build (fun part => split_chunk_recursive part (lvl + 1) maxl k) hf
              (spanList c lvl)
          constructor
          · rw [heq]
            rcases hps : split_by_header_level c lvl with _ | ⟨p0, prest⟩
            · rw [hps] at hle; simp at hle
            · have hp0 := (hf p0).1
              rcases hres : split_chunk_recursive p0 (lvl + 1) maxl k with _ | ⟨r0, rr⟩
              · exact absurd hres hp0
              · simp [hres]
          · refine ⟨full, ?_, ?_, ?_⟩
            · rw [hfl1, spanList_flatten]
            · rw [heq, hparts]
              exact hfl2
            · intro s hs
              rw [heq, hparts]
              exact hfl3 s hs

/-- C8: for every fragment, start level ≥ 1, max level ≥ 1 and ceiling,
`split_chunk_recursive` terminates (it is a total function here, defined by
well-founded recursion on `max_level + 2 - current_level`) and returns a
non-empty ordered list; some supersequence of that list concatenates to the
input fragment exactly, and its extra members are all blank — i.e. the
in-order concatenation of the results equals the input content, ignoring
spans dropped for being blank. -/
theorem C8_termination_cover (c : List Char) (lvl maxl : ℤ) (k : ℚ)
    (h1 : 1 ≤ lvl) (h2 : 1 ≤ maxl) :
    split_chunk_recursive c lvl maxl k ≠ [] ∧
      ∃ full : List (List Char), full.flatten = c ∧
        (split_chunk_recursive c lvl maxl k).Sublist full ∧
        ∀ s ∈ full, s ∈ split_chunk_recursive c lvl maxl k ∨ strip_truthy s = false :=
  split_chunk_cover (maxl + 2 - lvl).toNat c lvl maxl k le_rfl

theorem C8_witness :
    (1 : ℤ) ≤ 1 ∧ (1 : ℤ) ≤ 1 ∧
      (split_chunk_recursive ['x'] 1 1 1 ≠ [] ∧
        ∃ full : List (List Char), full.flatten = ['x'] ∧
          (split_chunk_recursive ['x'] 1 1 1).Sublist full ∧
          ∀ s ∈ full, s ∈ split_chunk_recursive ['x'] 1 1 1 ∨ strip_truthy s = false) :=
  ⟨by norm_num, by norm_num, C8_termination_cover ['x'] 1 1 1 (by norm_num) (by norm_num)⟩

/-! ### Claim C10: parameter validation -/

/-- C10: the pipeline raises a configuration error (a `ValueError` from
`_validate_params`, before any document is read — the equivalence holds
whether or not the source is even readable) if and only if
`max_size_kb ≤ 0`, or `min_size_kb < 0`, or `min_size_kb > max_size_kb`, or
`max_header_level` lies outside `[1, 6]`; equivalently, with parameters
satisfying ceiling > 0, 0 ≤ floor ≤ ceiling and 1 ≤ max level ≤ 6, no such
error is raised. -/
theorem C10_config_error_iff (source : Option (List Char)) (maxK minK : ℚ) (maxL : ℤ) :
    isConfigError (split_markdown_document source maxK minK maxL) ↔
      maxK ≤ 0 ∨ minK < 0 ∨ maxK < minK ∨ ¬(1 ≤ maxL ∧ maxL ≤ 6) := by
  constructor
  · intro hcfg
    by_contra hnone
    push_neg at hnone
    obtain ⟨h1, h2, h3, h4⟩ := hnone
    have hv : _validate_params maxK minK maxL = .ok () := by
      unfold _validate_params
      rw [if_neg (by exact_mod_cast not_le_of_lt h1), if_neg (not_lt_of_le h2),
        if_neg (not_lt_of_le h3), if_neg (not_not_intro h4)]
    unfold split_markdown_document at hcfg
    rw [hv] at hcfg
    obtain ⟨m, hm⟩ := hcfg
    rcases source with _ | content
    · simp at hm
    · dsimp only at hm
      split at hm <;> simp at hm
  · intro hc
    unfold split_markdown_document _validate_params isConfigError
    by_cases h1 : maxK ≤ 0
    · rw [if_pos h1]
      exact ⟨_, rfl⟩
    · by_cases h2 : minK < 0
      · rw [if_neg h1, if_pos h2]
        exact ⟨_, rfl⟩
      · by_cases h3 : maxK < minK
        · rw [if_neg h1, if_neg h2, if_pos h3]
          exact ⟨_, rfl⟩
        · have h4 : ¬(1 ≤ maxL ∧ maxL ≤ 6) := by tauto
          rw [if_neg h1, if_neg h2, if_neg h3, if_pos h4]
          exact ⟨_, rfl⟩

/-! ### Claim C4: what the scanner reports -/

/-- The claim's heading shape at level `L`: after the `'\n'`/`'\r'` strip
the line consists of exactly `L` leading `'#'` characters, then at least
one space or tab, then non-empty text, optionally followed by trailing
whitespace, a run of `'#'`, and more trailing whitespace (the optional
trailing `'#'` and whitespace that are stripped). -/
def spec_heading_shape (l : ℤ) (line : List Char) : Prop :=
  ∃ ws1 text ws2 hs ws3 : List Char,
    rstripNL line =
      List.replicate l.toNat '#' ++ (ws1 ++ (text ++ (ws2 ++ (hs ++ ws3)))) ∧
    ws1 ≠ [] ∧ (∀ c ∈ ws1, c = ' ' ∨ c = '\t') ∧
    text ≠ [] ∧ (∀ c ∈ ws2, c = ' ' ∨ c = '\t') ∧
    (∀ c ∈ hs, c = '#') ∧ (∀ c ∈ ws3, c = ' ' ∨ c = '\t')

theorem takeWhile_replicate_cons (p : Char → Bool) (a b : Char) (n : ℕ) (t : List Char)
    (hpa : p a = true) (hpb : p b = false) :
    (List.replicate n a ++ b :: t).takeWhile p = List.replicate n a := by
  induction n with
  | zero => simp [List.takeWhile_cons, hpb]
  | succ m ih => simp [List.replicate_succ, List.takeWhile_cons, hpa, ih]

theorem dropWhile_replicate_cons (p : Char → Bool) (a b : Char) (n : ℕ) (t : List Char)
    (hpa : p a = true) (hpb : p b = false) :
    (List.replicate n a ++ b :: t).dropWhile p = b :: t := by
  induction n with
  | zero => simp [List.dropWhile_cons, hpb]
  | succ m ih => simp [List.replicate_succ, List.dropWhile_cons, hpa, ih]

theorem breakLine_no_nl : ∀ s : List Char, '\n' ∉ rstripNL (breakLine s).1 := by
  intro s
  induction s with
  | nil => simp [breakLine, rstripNL]
  | cons c rest ih =>
    simp only [breakLine]
    split
    · show '\n' ∉ rstripNL ['\r', '\n']
      decide
    · split
      · next hnb hb =>
        intro hmem
        unfold rstripNL at hmem
        split at hmem
        · simp at hmem
        · next hcase =>
          rcases List.mem_cons.1 hmem with h | h
          · subst h
            exact hcase ⟨rfl, Or.inl rfl⟩
          · simp [rstripNL] at h
      · next hnb hb =>
        intro hmem
        unfold rstripNL at hmem
        split at hmem
        · simp at hmem
        · rcases List.mem_cons.1 hmem with h | h
          · subst h
            simp [isLineBreak] at hb
          · exact ih h

theorem mem_splitlines_no_nl (s : List Char) :
    ∀ line ∈ splitlines s, '\n' ∉ rstripNL line := by
  by_cases hs : s = []
  · subst hs
    simp
  · rw [splitlines, dif_neg hs]
    intro line hline
    rcases List.mem_cons.1 hline with h | h
    · subst h
      exact breakLine_no_nl s
    · exact mem_splitlines_no_nl (breakLine s).2 line h
termination_by s.length
decreasing_by exact breakLine_snd_length_lt s hs

theorem spec_heading_shape_iff {line : List Char} {l : ℤ} (h1 : 1 ≤ l) (h2 : l ≤ 6)
    (hnl : '\n' ∉ rstripNL line) :
    spec_heading_shape l line ↔ headingRunLevel line = some l := by
  constructor
  · rintro ⟨ws1, text, ws2, hs, ws3, hdec, hws1ne, hws1, htextne, hws2, hhs, hws3⟩
    rcases ws1 with _ | ⟨w, ws1'⟩
    · exact absurd rfl hws1ne
    have hw : w = ' ' ∨ w = '\t' := hws1 w (List.mem_cons_self _ _)
    have hwhash : isHash w = false := by
      rcases hw with h | h <;> subst h <;> decide
    have hshape : rstripNL line =
        List.replicate l.toNat '#' ++ w :: (ws1' ++ (text ++ (ws2 ++ (hs ++ ws3)))) := by
      rw [hdec, List.cons_append]
    have htw : (rstripNL line).takeWhile isHash = List.replicate l.toNat '#' := by
      rw [hshape]
      exact takeWhile_replicate_cons isHash '#' w _ _ (by decide) hwhash
    have hdw : (rstripNL line).dropWhile isHash =
        w :: (ws1' ++ (text ++ (ws2 ++ (hs ++ ws3)))) := by
      rw [hshape]
      exact dropWhile_replicate_cons isHash '#' w _ _ (by decide) hwhash
    unfold headingRunLevel
    rw [htw, hdw, List.length_replicate]
    rw [if_pos (by omega : 1 ≤ l.toNat ∧ l.toNat ≤ 6)]
    rcases htail : ws1' ++ (text ++ (ws2 ++ (hs ++ ws3))) with _ | ⟨d, rest2⟩
    · exfalso
      rw [List.append_eq_nil, List.append_eq_nil] at htail
      exact htextne htail.2.1
    · have hnotin : '\n' ∉ w :: d :: rest2 := by
        intro hmem
        apply hnl
        rw [hshape, htail]
        exact List.mem_append_right _ hmem
      dsimp only
      rw [if_pos ⟨hw, hnotin⟩, Int.toNat_of_nonneg (by omega : (0 : ℤ) ≤ l)]
  · intro h
    unfold headingRunLevel at h
    split at h
    · next hk =>
      rcases hrest : (rstripNL line).dropWhile isHash with _ | ⟨c, rest1⟩
      · rw [hrest] at h; simp at h
      rcases rest1 with _ | ⟨d, rest2⟩
      · rw [hrest] at h; simp at h
      rw [hrest] at h
      dsimp only at h
      split at h
      · next hcnd =>
        have hlen : (((rstripNL line).takeWhile isHash).length : ℤ) = l :=
          Option.some.inj h
        have htw_rep : (rstripNL line).takeWhile isHash = List.replicate l.toNat '#' := by
          have hall : ∀ b ∈ (rstripNL line).takeWhile isHash, b = '#' := by
            intro b hb
            have hpb := List.mem_takeWhile_imp hb
            unfold isHash at hpb
            exact beq_iff_eq.1 hpb
          have hrep := List.eq_replicate_of_mem hall
          rw [hrep]
          congr 1
          omega
        refine ⟨[c], d :: rest2, [], [], [], ?_, by simp, ?_, by simp, by simp, by simp,
          by simp⟩
        · conv_lhs => rw [← List.takeWhile_append_dropWhile isHash (rstripNL line)]
          rw [htw_rep, hrest]
          simp
        · intro c' hc'
          rw [List.mem_singleton.1 hc']
          exact hcnd.1
      · exact absurd h (by simp)
    · exact absurd h (by simp)

theorem findHeadingsAux_mem_iff (l : ℤ) :
    ∀ (lines : List (List Char)) (i : ℕ) (st : Option (Char × ℕ)) (j : ℕ),
      j ∈ findHeadingsAux l lines i st ↔
        ∃ (k : ℕ) (line : List Char), lines[k]? = some line ∧ j = i + k ∧
          headingRunLevel line = some l ∧ (lines.take k).foldl fence_step st = none := by
  intro lines
  induction lines with
  | nil =>
    intro i st j
    simp [findHeadingsAux]
  | cons line rest ih =>
    intro i st j
    rw [findHeadingsAux_cons, List.mem_append]
    by_cases hcond : st = none ∧ headingRunLevel line = some l
    · rw [if_pos hcond]
      constructor
      · rintro (h1 | h2)
        · refine ⟨0, line, List.getElem?_cons_zero, by simpa using h1, hcond.2, ?_⟩
          simpa using hcond.1
        · obtain ⟨k, line', hk, hj, hh, hfold⟩ := (ih (i + 1) _ j).1 h2
          exact ⟨k + 1, line', by simpa using hk, by omega, hh,
            by simpa [List.foldl_cons] using hfold⟩
      · rintro ⟨k, line', hk, hj, hh, hfold⟩
        rcases k with _ | k'
        · left
          rw [List.getElem?_cons_zero] at hk
          simp [hj]
        · right
          refine (ih (i + 1) _ j).2 ⟨k', line', by simpa using hk, by omega, hh, ?_⟩
          simpa [List.foldl_cons] using hfold
    · rw [if_neg hcond]
      simp only [List.not_mem_nil, false_or, List.nil_append]
      rw [ih (i + 1) _ j]
      constructor
      · rintro ⟨k, line', hk, hj, hh, hfold⟩
        exact ⟨k + 1, line', by simpa using hk, by omega, hh,
          by simpa [List.foldl_cons] using hfold⟩
      · rintro ⟨k, line', hk, hj, hh, hfold⟩
        rcases k with _ | k'
        · exfalso
          rw [List.getElem?_cons_zero] at hk
          simp only [List.take_zero, List.foldl_nil] at hfold
          exact hcond ⟨hfold, (Option.some.inj hk) ▸ hh⟩
        · exact ⟨k', line', by simpa using hk, by omega, hh,
            by simpa [List.foldl_cons] using hfold⟩

/-- C4: for a target level in [1,6], the scanner reports exactly the
indices of lines that have the claim's heading shape at that level and at
which the fence state (the fold of the spec's fence transition over the
preceding lines) is "not in fence".  In particular a heading-shaped line
inside a fence is never reported, an unterminated fence suppresses all
later headings, and a heading line right after a fence close is reported
normally. -/
theorem C4_scanner_reports (content : List Char) (l : ℤ) (h1 : 1 ≤ l) (h2 : l ≤ 6)
    (idx : ℕ) :
    idx ∈ findHeadings content l ↔
      ∃ line : List Char, (splitlines content)[idx]? = some line ∧
        spec_heading_shape l line ∧
        fence_state_before (splitlines content) idx = none := by
  unfold findHeadings fence_state_before
  rw [findHeadingsAux_mem_iff]
  constructor
  · rintro ⟨k, line, hk, hj, hh, hfold⟩
    have hki : k = idx := by omega
    subst hki
    have hnl : '\n' ∉ rstripNL line :=
      mem_splitlines_no_nl content line (List.getElem?_mem hk)
    exact ⟨line, hk, (spec_heading_shape_iff h1 h2 hnl).2 hh, hfold⟩
  · rintro ⟨line, hk, hshape, hfold⟩
    have hnl : '\n' ∉ rstripNL line :=
      mem_splitlines_no_nl content line (List.getElem?_mem hk)
    exact ⟨idx, line, hk, by omega, (spec_heading_shape_iff h1 h2 hnl).1 hshape, hfold⟩

theorem C4_witness :
    (1 : ℤ) ≤ 1 ∧ (1 : ℤ) ≤ 6 ∧
      (1 ∈ findHeadings "x\n# a\n".data 1 ↔
        ∃ line : List Char, (splitlines "x\n# a\n".data)[1]? = some line ∧
          spec_heading_shape 1 line ∧
          fence_state_before (splitlines "x\n# a\n".data) 1 = none) :=
  ⟨by norm_num, by norm_num,
    C4_scanner_reports "x\n# a\n".data 1 (by norm_num) (by norm_num) 1⟩

/-! ### Claim C3: fence markers and the close rule -/

/-- The fence-marker shape exactly as claim C3 words it: after stripping up
to 3 leading **spaces**, the line begins with a run of 3 or more
consecutive **identical** characters, all backticks or all tildes, possibly
followed by trailing info-string text. -/
def spec_fence_shape_orig (line : List Char) : Prop :=
  ∃ ws run rest' : List Char, ∃ m : Char,
    rstripNL line = ws ++ (run ++ rest') ∧
    ws.length ≤ 3 ∧ (∀ c ∈ ws, c = ' ') ∧
    3 ≤ run.length ∧ (m = backtick ∨ m = '~') ∧ (∀ c ∈ run, c = m)

/-- The fence-marker shape the code actually implements: after up to 3
leading spaces **or tabs**, a maximal run of 3 or more characters each
drawn from {backtick, tilde} (not necessarily identical); the marker
character is the first character of the run and the reported length is the
run's length; trailing info-string text may follow. -/
def spec_fence_shape (line : List Char) (marker : Char) (len : ℕ) : Prop :=
  ∃ ws run rest' : List Char,
    rstripNL line = ws ++ (run ++ rest') ∧
    ws.length ≤ 3 ∧ (∀ c ∈ ws, c = ' ' ∨ c = '\t') ∧
    3 ≤ run.length ∧ (∀ c ∈ run, c = backtick ∨ c = '~') ∧
    (∀ c ∈ rest'.head?, ¬(c = backtick ∨ c = '~')) ∧
    run.head? = some marker ∧ run.length = len

theorem takeWhile_all_append (p : Char → Bool) :
    ∀ (ws t : List Char), (∀ c ∈ ws, p c = true) → (∀ c ∈ t.head?, p c = false) →
      (ws ++ t).takeWhile p = ws ∧ (ws ++ t).dropWhile p = t := by
  intro ws
  induction ws with
  | nil =>
    intro t _ ht
    rcases t with _ | ⟨c, t'⟩
    · simp
    · have hc : p c = false := ht c (by simp)
      simp [List.takeWhile_cons, List.dropWhile_cons, hc]
  | cons a ws' ih =>
    intro t hws ht
    have hpa : p a = true := hws a (List.mem_cons_self _ _)
    have := ih t (fun c hc => hws c (List.mem_cons_of_mem a hc)) ht
    simp [List.takeWhile_cons, List.dropWhile_cons, hpa, this.1, this.2]

theorem head?_dropWhile_false (p : Char → Bool) :
    ∀ (l : List Char) (c : Char), (l.dropWhile p).head? = some c → p c = false := by
  intro l
  induction l with
  | nil => intro c h; simp at h
  | cons a t ih =>
    intro c h
    rw [List.dropWhile_cons] at h
    by_cases hpa : p a = true
    · rw [if_pos hpa] at h
      exact ih c h
    · rw [if_neg hpa] at h
      simp only [List.head?_cons, Option.some.injEq] at h
      rw [← h]
      exact Bool.not_eq_true _ ▸ hpa

theorem spec_fence_shape_iff {doc line : List Char} (hmem : line ∈ splitlines doc)
    (marker : Char) (len : ℕ) :
    _parse_fence_marker line = some (marker, len) ↔ spec_fence_shape line marker len := by
  have hnl : '\n' ∉ rstripNL line := mem_splitlines_no_nl doc line hmem
  constructor
  · intro h
    unfold _parse_fence_marker at h
    split at h
    · exact absurd h (by simp)
    · next hwlen =>
      rcases hrun : ((rstripNL line).dropWhile fenceWS).takeWhile fenceChar with
        _ | ⟨c0, _ | ⟨c1, _ | ⟨c2, more⟩⟩⟩ <;> rw [hrun] at h <;> dsimp only at h
      · simp at h
      · simp at h
      · simp at h
      · by_cases hnli : '\n' ∈ ((rstripNL line).dropWhile fenceWS).dropWhile fenceChar
        · rw [if_pos hnli] at h
          exact absurd h (by simp)
        · rw [if_neg hnli] at h
          obtain ⟨hm, hlen2⟩ : c0 = marker ∧ more.length + 3 = len := by
            have hinj := Option.some.inj h
            exact ⟨congrArg Prod.fst hinj, congrArg Prod.snd hinj⟩
          subst hm
          subst hlen2
          refine ⟨(rstripNL line).takeWhile fenceWS,
            c0 :: c1 :: c2 :: more,
            ((rstripNL line).dropWhile fenceWS).dropWhile fenceChar,
            ?_, by omega, ?_, by simp, ?_, ?_, rfl, rfl⟩
          · rw [← hrun, ← List.takeWhile_append_dropWhile fenceChar
              ((rstripNL line).dropWhile fenceWS),
              ← List.takeWhile_append_dropWhile fenceWS (rstripNL line)]
            simp
          · intro c hc
            have := List.mem_takeWhile_imp hc
            unfold fenceWS at this
            simpa using this
          · intro c hc
            have hfence := List.mem_takeWhile_imp (hrun ▸ hc)
            unfold fenceChar at hfence
            simpa using hfence
          · intro c hc
            have := head?_dropWhile_false fenceChar _ c hc
            unfold fenceChar at this
            simpa using this
  · rintro ⟨ws, run, rest', heq, hwslen, hws, hrunlen, hrun, hmax, hhead, hlen⟩
    rcases run with _ | ⟨r0, runtail⟩
    · simp at hhead
    have hr0 : r0 = backtick ∨ r0 = '~' := hrun r0 (List.mem_cons_self _ _)
    have hr0ws : fenceWS r0 = false := by
      rcases hr0 with h | h <;> subst h <;> decide
    have hwsdec : ∀ c ∈ ws, fenceWS c = true := by
      intro c hc
      rcases hws c hc with h | h <;> subst h <;> decide
    have hsplit1 := takeWhile_all_append fenceWS ws ((r0 :: runtail) ++ rest') hwsdec
      (by intro c hc; simp at hc; rw [← hc]; exact hr0ws)
    have hrundec : ∀ c ∈ r0 :: runtail, fenceChar c = true := by
      intro c hc
      rcases hrun c hc with h | h <;> subst h <;> decide
    have hmaxdec : ∀ c ∈ rest'.head?, fenceChar c = false := by
      intro c hc
      have := hmax c hc
      unfold fenceChar
      rcases hb : (c == backtick || c == '~') with _ | _
      · rfl
      · exfalso
        apply this
        simpa using hb
    have hsplit2 := takeWhile_all_append fenceChar (r0 :: runtail) rest' hrundec hmaxdec
    unfold _parse_fence_marker
    rw [heq] at hnl ⊢
    rw [hsplit1.1, hsplit1.2, hsplit2.1, hsplit2.2]
    rw [if_neg (by omega)]
    rcases runtail with _ | ⟨r1, _ | ⟨r2, more⟩⟩
    · simp at hrunlen
    · simp at hrunlen
    · have hnlrest : '\n' ∉ rest' := fun hmem' =>
        hnl (List.mem_append_right _ (List.mem_append_right _ hmem'))
      dsimp only
      rw [if_neg hnlrest]
      simp only [List.head?_cons, Option.some.injEq] at hhead
      have hlen3 : more.length + 3 = len := by
        simpa using hlen
      rw [hhead, hlen3]

/-- C3 fails as stated: the line `"\t```"` (a tab, then three backticks) is
treated as a fence marker by the code (the regex allows tabs in the
indent), but it does not match the claim's shape, which only strips leading
spaces. -/
theorem C3_counterexample :
    splitlines "\t```\n".data = ["\t```\n".data] ∧
      _parse_fence_marker "\t```\n".data = some (backtick, 3) ∧
      ¬ spec_fence_shape_orig "\t```\n".data := by
  refine ⟨by simp [splitlines_cons, breakLine, isLineBreak], by decide, ?_⟩
  rintro ⟨ws, run, rest', m, heq, hwslen, hws, hrunlen, hm, hrun⟩
  have hs : rstripNL "\t```\n".data = '\t' :: backtick :: backtick :: backtick :: [] := by
    decide
  rw [hs] at heq
  rcases ws with _ | ⟨w0, ws'⟩
  · rcases run with _ | ⟨r0, run'⟩
    · simp at hrunlen
    · simp only [List.nil_append, List.cons_append] at heq
      injection heq with h1 h2
      have hmem := hrun r0 (List.mem_cons_self _ _)
      rw [← h1] at hmem
      rcases hm with h | h <;> rw [h] at hmem <;> exact absurd hmem (by decide)
  · have hw0 : w0 = ' ' := hws w0 (List.mem_cons_self _ _)
    rw [List.cons_append] at heq
    injection heq with h1 h2
    rw [hw0] at h1
    exact absurd h1 (by decide)

/-- C3 amended: a line of a document is treated as a fence marker, with
marker character `c` and run length `n`, iff after stripping up to 3
leading spaces **or tabs** it begins with a maximal run of `n ≥ 3`
consecutive characters each a backtick or a tilde whose first character is
`c`, possibly followed by trailing info-string text; and an open fence
`(fc, fl)` is closed by a line exactly when that line is a fence marker
whose marker character equals `fc` and whose run length is at least `fl`
(otherwise the scanner stays in the fence). -/
theorem C3_fence_marker (doc line : List Char) (hmem : line ∈ splitlines doc)
    (fc : Char) (fl : ℕ) (lvl : ℤ) (i : ℕ) (rest : List (List Char)) :
    (∀ p : Char × ℕ, _parse_fence_marker line = some p ↔ spec_fence_shape line p.1 p.2) ∧
    ((∃ c n, _parse_fence_marker line = some (c, n) ∧ c = fc ∧ fl ≤ n) →
      findHeadingsAux lvl (line :: rest) i (some (fc, fl)) =
        findHeadingsAux lvl rest (i + 1) none) ∧
    (¬ (∃ c n, _parse_fence_marker line = some (c, n) ∧ c = fc ∧ fl ≤ n) →
      findHeadingsAux lvl (line :: rest) i (some (fc, fl)) =
        findHeadingsAux lvl rest (i + 1) (some (fc, fl))) := by
  refine ⟨fun p => spec_fence_shape_iff hmem p.1 p.2, ?_, ?_⟩
  · rintro ⟨c, n, hp, rfl, hn⟩
    rw [findHeadingsAux_cons, if_neg (by simp)]
    simp [fence_step, hp, hn]
  · intro hno
    rw [findHeadingsAux_cons, if_neg (by simp)]
    simp only [List.nil_append]
    congr 1
    unfold fence_step
    rcases hp : _parse_fence_marker line with _ | ⟨c, n⟩
    · rfl
    · dsimp only
      rw [if_neg (fun hcn => hno ⟨c, n, hp, hcn.1, hcn.2⟩)]

theorem C3_witness :
    ("```\n".data ∈ splitlines "```\n".data) ∧
      ((∀ p : Char × ℕ, _parse_fence_marker "```\n".data = some p ↔
          spec_fence_shape "```\n".data p.1 p.2) ∧
        ((∃ c n, _parse_fence_marker "```\n".data = some (c, n) ∧ c = backtick ∧ 3 ≤ n) →
          findHeadingsAux 1 ["```\n".data] 0 (some (backtick, 3)) =
            findHeadingsAux 1 [] 1 none) ∧
        (¬ (∃ c n, _parse_fence_marker "```\n".data = some (c, n) ∧ c = backtick ∧ 3 ≤ n) →
          findHeadingsAux 1 ["```\n".data] 0 (some (backtick, 3)) =
            findHeadingsAux 1 [] 1 (some (backtick, 3)))) :=
  have hmem : "```\n".data ∈ splitlines "```\n".data := by
    have : splitlines "```\n".data = ["```\n".data] := by
      simp [splitlines_cons, breakLine, isLineBreak]
    rw [this]
    exact List.mem_singleton.2 rfl
  ⟨hmem, C3_fence_marker "```\n".data "```\n".data hmem backtick 3 1 0 []⟩

end MinerU
